import Mathlib

/-!
Shallow embedding of `pkg/tools/gkereleasenotes` (Go) from the gke-mcp
repository: the pure core consisting of
  - the marker scanner (`gkeVersionRegexp.FindAllStringIndex`),
  - the heading scanner (`releaseDateHeadingRegexp.FindAllStringIndex`),
  - `parseGkeVersion`, `compareVersions`,
  - `extractReleaseNotesRelevantForUpgrade`.

Documents are `List Char` and offsets are character offsets (the Go code
uses byte offsets into a string; on the ASCII documents the code is meant
for, these coincide).  Go's slice panic (`doc[l:r]` with `l > r`) is
modelled by returning `none` from the extractor; the Go function's `error`
result is the constant `nil` (there is no `return .., err` in its body), so
no error channel is modelled.

Go regexp (RE2) semantics used by the two patterns are embedded directly:
`FindAllStringIndex` returns successive leftmost matches, continuing after
the end of each match; matching is leftmost-first (alternations prefer the
left branch, `+`/`*` are greedy).  For both patterns every greedy repetition
is followed by a character from a disjoint class, so greedy maximal-munch
matching is exact; the only place backtracking is observable is the trailing
`\s*(\n|$)` of the heading pattern, where the greedy `\s*` backs off to the
last `\n` of the whitespace run (or `$` fires at end of text).  `^` and `$`
are text anchors (no multiline flag).  RE2 classes: `\d = [0-9]`,
`\s = [\t\n\f\r ]`, `[A-Za-z]` as written.
-/

/-- RE2 `\d`: the ASCII digits. -/
def isDigitB (c : Char) : Bool := decide (48 ≤ c.toNat) && decide (c.toNat ≤ 57)

/-- RE2 `[A-Za-z]`. -/
def isAlphaB (c : Char) : Bool :=
  (decide (65 ≤ c.toNat) && decide (c.toNat ≤ 90)) ||
  (decide (97 ≤ c.toNat) && decide (c.toNat ≤ 122))

/-- RE2 `\s`, i.e. `[\t\n\f\r ]`. -/
def isSpaceB (c : Char) : Bool :=
  decide (c.toNat = 9) || decide (c.toNat = 10) || decide (c.toNat = 12) ||
  decide (c.toNat = 13) || decide (c.toNat = 32)

/-- Length of the maximal prefix of `s` whose characters satisfy `p`
(the text consumed by a greedy `p*` / `p+`). -/
def takeRun (p : Char → Bool) : List Char → Nat
  | [] => 0
  | c :: rest => if p c then takeRun p rest + 1 else 0

/-- Index of the last `'\n'` in `s`, if any (used for the backtracking of
the trailing `\s*(\n|$)` of the heading pattern). -/
def lastNewline : List Char → Option Nat
  | [] => none
  | c :: rest =>
    match lastNewline rest with
    | some k => some (k + 1)
    | none => if c = '\n' then some 0 else none

/-- Match of `gkeVersionRegexp = \d+\.\d+\.\d+-gke\.\d+` anchored at the
head of `s`: returns the number of characters consumed.  Every `\d+` is
greedy and is followed by a non-digit in the pattern, so maximal munch is
exact leftmost-first matching. -/
def versionCore (s : List Char) : Option Nat :=
  let d1 := takeRun isDigitB s
  if d1 = 0 then none else
  match s.drop d1 with
  | '.' :: s1 =>
    let d2 := takeRun isDigitB s1
    if d2 = 0 then none else
    match s1.drop d2 with
    | '.' :: s2 =>
      let d3 := takeRun isDigitB s2
      if d3 = 0 then none else
      match s2.drop d3 with
      | '-' :: 'g' :: 'k' :: 'e' :: '.' :: s3 =>
        let d4 := takeRun isDigitB s3
        if d4 = 0 then none else
        some (d1 + 1 + d2 + 1 + d3 + 5 + d4)
      | _ => none
    | _ => none
  | _ => none

/-- Greedy `p*`: the consumed count and the remaining input. -/
def optRun (p : Char → Bool) (s : List Char) : Nat × List Char :=
  (takeRun p s, s.drop (takeRun p s))

/-- Greedy `p+`: fails when no character is consumed. -/
def reqRun (p : Char → Bool) (s : List Char) : Option (Nat × List Char) :=
  if takeRun p s = 0 then none else some (takeRun p s, s.drop (takeRun p s))

/-- A single literal character. -/
def reqChar (c : Char) : List Char → Option (List Char)
  | c0 :: rest => if c0 = c then some rest else none
  | [] => none

/-- The trailing `\s*(\n|$)` of the heading pattern (`$` is a text anchor,
and `s` is always a suffix of the scanned text here): the greedy `\s*`
consumes the whole whitespace run when it reaches the end of the text;
otherwise it backs off to just before the last `'\n'` of the run, which the
`\n` alternative then consumes; with no `'\n'` in the run the whole pattern
fails. -/
def headingTail (s : List Char) : Option Nat :=
  let wt := takeRun isSpaceB s
  if s.length = wt then some wt
  else
    match lastNewline (s.take wt) with
    | some k => some (k + 1)
    | none => none

/-- Match of the part of `releaseDateHeadingRegexp` after the `(^|\n)`
anchor, i.e. `\s*[A-Za-z]+\s+\d+,\s+\d+\s*(\n|$)`, anchored at the head of
`s`; returns the number of characters consumed.  All repetitions are greedy;
adjacent classes are disjoint, so only the trailing `\s*(\n|$)` (see
`headingTail`) observably backtracks. -/
def headingCore (s : List Char) : Option Nat :=
  let (w1, s1) := optRun isSpaceB s
  match reqRun isAlphaB s1 with
  | none => none
  | some (l1, s2) =>
  match reqRun isSpaceB s2 with
  | none => none
  | some (w2, s3) =>
  match reqRun isDigitB s3 with
  | none => none
  | some (d1, s4) =>
  match reqChar ',' s4 with
  | none => none
  | some s5 =>
  match reqRun isSpaceB s5 with
  | none => none
  | some (w3, s6) =>
  match reqRun isDigitB s6 with
  | none => none
  | some (d2, s7) =>
  match headingTail s7 with
  | none => none
  | some mt => some (w1 + l1 + w2 + d1 + 1 + w3 + d2 + mt)

/-- Match of `gkeVersionRegexp` starting at offset `pos` of `doc`. -/
def versionMatchLen (doc : List Char) (pos : Nat) : Option Nat :=
  versionCore (doc.drop pos)

/-- Match of `releaseDateHeadingRegexp` starting at offset `pos` of `doc`:
the `(^|\n)` alternative matches empty at `pos = 0` (`^` is a text anchor)
or consumes a `'\n'`.  At `pos = 0` with `doc.head = '\n'` both branches
yield the same match, so trying `^` first is exact. -/
def headingMatchLen (doc : List Char) (pos : Nat) : Option Nat :=
  if pos = 0 then headingCore doc
  else
    match doc.drop pos with
    | '\n' :: rest =>
      match headingCore rest with
      | some m => some (m + 1)
      | none => none
    | _ => none

/-- `Regexp.FindAllStringIndex(doc, -1)`: successive leftmost matches, each
search resuming at the end of the previous match.  `fuel` is an upper bound
on the number of remaining scan positions (both patterns only produce
non-empty matches, so the position strictly increases). -/
def findAllAux (matchLen : List Char → Nat → Option Nat) :
    Nat → List Char → Nat → List (Nat × Nat)
  | 0, _, _ => []
  | fuel + 1, doc, pos =>
    if pos < doc.length then
      match matchLen doc pos with
      | some len => (pos, pos + len) :: findAllAux matchLen fuel doc (pos + len)
      | none => findAllAux matchLen fuel doc (pos + 1)
    else []

/-- All matches of a pattern in `doc` as `[start, end)` offset pairs. -/
def findAllIdx (matchLen : List Char → Nat → Option Nat) (doc : List Char) :
    List (Nat × Nat) :=
  findAllAux matchLen (doc.length + 1) doc 0

/-- `gkeVersionRegexp.FindAllStringIndex(fullReleaseNotes, -1)`. -/
def versionLocations (doc : List Char) : List (Nat × Nat) :=
  findAllIdx versionMatchLen doc

/-- `releaseDateHeadingRegexp.FindAllStringIndex(s, -1)`. -/
def headingLocations (doc : List Char) : List (Nat × Nat) :=
  findAllIdx headingMatchLen doc

/-- Go slice `doc[a:b]` (on the in-bounds, non-crossing cases where the Go
code does not panic). -/
def sliceL (doc : List Char) (a b : Nat) : List Char :=
  (doc.drop a).take (b - a)

/-- Numeric value of a digit string. -/
def digitsVal (ds : List Char) : Nat :=
  ds.foldl (fun n c => 10 * n + (c.toNat - 48)) 0

/-- `strconv.Atoi` (= `strconv.ParseInt(s, 10, 0)` with 64-bit `int`): an
optional sign followed by at least one ASCII digit, failing when the value
overflows `int64`.  Note Go accepts a leading `-` or `+`. -/
def atoi (s : List Char) : Option Int :=
  match s with
  | '-' :: ds =>
    if ds.isEmpty then none
    else if ds.all isDigitB then
      if digitsVal ds ≤ 9223372036854775808 then some (-(digitsVal ds : Int)) else none
    else none
  | '+' :: ds =>
    if ds.isEmpty then none
    else if ds.all isDigitB then
      if digitsVal ds ≤ 9223372036854775807 then some (digitsVal ds : Int) else none
    else none
  | ds =>
    if ds.isEmpty then none
    else if ds.all isDigitB then
      if digitsVal ds ≤ 9223372036854775807 then some (digitsVal ds : Int) else none
    else none

/-- `strings.Split(s, "-gke.")`: split on every non-overlapping occurrence
of the five-character separator, left to right. -/
def splitGke : List Char → List (List Char)
  | [] => [[]]
  | '-' :: 'g' :: 'k' :: 'e' :: '.' :: rest => [] :: splitGke rest
  | c :: rest =>
    match splitGke rest with
    | [] => [[c]]
    | hd :: tl => (c :: hd) :: tl

/-- `strings.Split(s, ".")`. -/
def splitDot : List Char → List (List Char)
  | [] => [[]]
  | '.' :: rest => [] :: splitDot rest
  | c :: rest =>
    match splitDot rest with
    | [] => [[c]]
    | hd :: tl => (c :: hd) :: tl

/-- `parseGkeVersion`: returns the four ints (major, minor, patch, GKE
patch), or `none` for any of the Go error returns. -/
def parseGkeVersion (version : List Char) : Option (Int × Int × Int × Int) :=
  match splitGke version with
  | [k8sVersionPart, gkeVersionPart] =>
    match splitDot k8sVersionPart with
    | [maS, miS, paS] =>
      match atoi maS, atoi miS, atoi paS, atoi gkeVersionPart with
      | some major, some minor, some patch, some gkePatch =>
        some (major, minor, patch, gkePatch)
      | _, _, _, _ => none
    | _ => none
  | _ => none

/-- The comparison `compareVersions` performs on two parsed versions:
`1` if `b > a`, `0` if `b = a`, `-1` if `b < a`, first unequal field
deciding (major, minor, patch, GKE patch). -/
def cmpParsed (a b : Int × Int × Int × Int) : Int :=
  if b.1 > a.1 then 1 else if b.1 < a.1 then -1 else
  if b.2.1 > a.2.1 then 1 else if b.2.1 < a.2.1 then -1 else
  if b.2.2.1 > a.2.2.1 then 1 else if b.2.2.1 < a.2.2.1 then -1 else
  if b.2.2.2 > a.2.2.2 then 1 else if b.2.2.2 < a.2.2.2 then -1 else 0

/-- `compareVersions(a, b)`: `none` models the error return (either
argument failing to parse). -/
def compareVersions (a b : List Char) : Option Int :=
  match parseGkeVersion a with
  | none => none
  | some pa =>
    match parseGkeVersion b with
    | none => none
    | some pb => some (cmpParsed pa pb)

/-- The left-border loop's stop condition at one location: `compareVersions
(version, targetVersion)` succeeded with `cmp ≥ 0` (the marker is `≤`
target).  Parse failures never stop (`continue // Skip invalid versions`). -/
def stopsL (doc : List Char) (tv : List Char) (loc : Nat × Nat) : Bool :=
  match compareVersions (sliceL doc loc.1 loc.2) tv with
  | some c => decide (0 ≤ c)
  | none => false

/-- The right-border loop's stop condition: `cmp ≤ 0` (marker is `≥`
source). -/
def stopsR (doc : List Char) (sv : List Char) (loc : Nat × Nat) : Bool :=
  match compareVersions (sliceL doc loc.1 loc.2) sv with
  | some c => decide (c ≤ 0)
  | none => false

/-- Exact-equality test at one location (`cmp == 0`). -/
def eqVer (doc : List Char) (v : List Char) (loc : Nat × Nat) : Bool :=
  compareVersions (sliceL doc loc.1 loc.2) v = some 0

/-- The shared shape of the two border-selection loops of
`extractReleaseNotesRelevantForUpgrade`: walk the location list, remembering
the previously visited location; at the first location where `stop` holds,
yield that location itself if `isEq` holds there, otherwise the previously
visited location (or the location itself if it is the first visited —
Go's `locIndex == 0` / `iFromEnd == len-1` cases).  `none` models the loop
running to completion without a stop. -/
def borderScan (stop isEq : Nat × Nat → Bool) :
    List (Nat × Nat) → Option (Nat × Nat) → Option (Nat × Nat)
  | [], _ => none
  | loc :: rest, prev =>
    if stop loc then some (if isEq loc then loc else prev.getD loc)
    else borderScan stop isEq rest (some loc)

/-- The pre-expansion window `(leftBorder, rightBorder)`: the left loop
scans `versionLocations` forward driven by `targetVersion` (using the
location start), the right loop scans backward driven by `sourceVersion`
(using the location end); a loop with no stop leaves the default `0` /
`len(fullReleaseNotes)`. -/
def preWindow (doc sv tv : List Char) : Nat × Nat :=
  let locs := versionLocations doc
  let lb :=
    match borderScan (stopsL doc tv) (eqVer doc tv) locs none with
    | some loc => loc.1
    | none => 0
  let rb :=
    match borderScan (stopsR doc sv) (eqVer doc sv) locs.reverse none with
    | some loc => loc.2
    | none => doc.length
  (lb, rb)

/-- The `leftAppend` computation: headings are re-scanned in the prefix
`fullReleaseNotes[:leftBorder]`; with at least one heading the prefix is
kept from the last heading's match start, with none the whole prefix is
kept, and an empty prefix contributes nothing. -/
def leftAppendOf (doc : List Char) (lb : Nat) : List Char :=
  let leftCut := doc.take lb
  if leftCut.length = 0 then []
  else
    match (headingLocations leftCut).getLast? with
    | none => leftCut
    | some loc => leftCut.drop loc.1

/-- The `rightAppend` computation: headings are re-scanned in the suffix
`fullReleaseNotes[rightBorder:]`; with at least one heading the suffix is
kept up to `firstHeading.start - 1` clamped at `0` (note the extra `- 1`),
with none the whole suffix is kept. -/
def rightAppendOf (doc : List Char) (rb : Nat) : List Char :=
  let rightCut := doc.drop rb
  if rightCut.length = 0 then []
  else
    match (headingLocations rightCut).head? with
    | none => rightCut
    | some loc => rightCut.take (loc.1 - 1)

/-- `extractReleaseNotesRelevantForUpgrade`.  The Go body never returns a
non-nil error; its only failure mode is the slice-bounds panic of
`fullReleaseNotes[leftBorder:rightBorder]` when the two border loops cross
(`leftBorder > rightBorder`), modelled as `none`. -/
def extractReleaseNotesRelevantForUpgrade (doc sv tv : List Char) :
    Option (List Char) :=
  let w := preWindow doc sv tv
  if w.1 ≤ w.2 then
    some (leftAppendOf doc w.1 ++ sliceL doc w.1 w.2 ++ rightAppendOf doc w.2)
  else none

/-- The final `[left, right)` window of the returned substring: the
pre-expansion window widened by the two append computations (`none` when
the Go code panics before expanding). -/
def finalWindow (doc sv tv : List Char) : Option (Nat × Nat) :=
  let w := preWindow doc sv tv
  if w.1 ≤ w.2 then
    some (w.1 - (leftAppendOf doc w.1).length, w.2 + (rightAppendOf doc w.2).length)
  else none

/-- The lexicographic numeric order on parsed versions (major, minor,
patch, GKE patch), written independently of `cmpParsed`: the mathematical
order the comparison is supposed to implement. -/
def vle (a b : Int × Int × Int × Int) : Prop :=
  a.1 < b.1 ∨ (a.1 = b.1 ∧ (a.2.1 < b.2.1 ∨ (a.2.1 = b.2.1 ∧
    (a.2.2.1 < b.2.2.1 ∨ (a.2.2.1 = b.2.2.1 ∧ a.2.2.2 ≤ b.2.2.2)))))

instance (a b : Int × Int × Int × Int) : Decidable (vle a b) := by
  unfold vle
  infer_instance

/-- Index of the first location where `p` holds. -/
def firstStop (p : Nat × Nat → Bool) : List (Nat × Nat) → Option Nat
  | [] => none
  | loc :: rest => if p loc then some 0 else (firstStop p rest).map (fun i => i + 1)

/-- The final left edge: start of the last heading match in the prefix, or
`0` with no heading there (also when the prefix is empty). -/
def leftEdge (doc : List Char) (lb : Nat) : Nat :=
  match (headingLocations (doc.take lb)).getLast? with
  | none => 0
  | some hd => hd.1

/-- The final right edge: one character before the start of the first
heading match in the suffix (clamped), or the document end with no heading
there. -/
def rightEdge (doc : List Char) (rb : Nat) : Nat :=
  match (headingLocations (doc.drop rb)).head? with
  | none => doc.length
  | some hd => rb + (hd.1 - 1)

/-- The left border as §4.4 of the spec words it: at the first marker
(scanning forward, skipping unparsable ones) whose version is `≤` target,
the border is that marker's start when its version equals the target,
otherwise the start of the immediately preceding marker occurrence (its own
start when it is the very first occurrence); with no stop the default is
offset `0`. -/
def specLeftBorder (doc tv : List Char) : Nat :=
  let locs := versionLocations doc
  Option.elim (firstStop (stopsL doc tv) locs) 0 (fun i =>
    if eqVer doc tv (locs.getD i (0, 0)) then (locs.getD i (0, 0)).1
    else if i = 0 then (locs.getD 0 (0, 0)).1
    else (locs.getD (i - 1) (0, 0)).1)

/-- The right border, mirrored: scanning backward from the last marker,
at the first marker whose version is `≥` source the border is that marker's
end when equal to the source, otherwise the end of the marker occurrence
immediately after it in document order (its own end when it is the last
occurrence); with no stop the default is the document length. -/
def specRightBorder (doc sv : List Char) : Nat :=
  let rlocs := (versionLocations doc).reverse
  Option.elim (firstStop (stopsR doc sv) rlocs) doc.length (fun i =>
    if eqVer doc sv (rlocs.getD i (0, 0)) then (rlocs.getD i (0, 0)).2
    else if i = 0 then (rlocs.getD 0 (0, 0)).2
    else (rlocs.getD (i - 1) (0, 0)).2)

/-! ### Concrete documents used to instantiate the claims -/

/-- A one-marker document. -/
def docC1 : List Char := ("x 1.2.3-gke.4 y").toList

/-- Two markers in descending version order (newest first). -/
def docC2 : List Char := ("a 9.0.0-gke.9 b 5.0.0-gke.5 c").toList

/-- A dated heading followed by one marker. -/
def docC3 : List Char :=
  ("A" ++ "\n" ++ "Nov 14, 2025" ++ "\n" ++ " 5.0.0-gke.5 B").toList

/-- A marker followed by text and a dated heading. -/
def docC5 : List Char :=
  ("1.2.3-gke.4 X" ++ "\n" ++ "Nov 14, 2025" ++ "\n").toList

/-- A dated heading followed by two markers in descending order. -/
def docC8 : List Char :=
  ("A" ++ "\n" ++ "Nov 14, 2025" ++ "\n" ++ " 9.0.0-gke.0 B 5.0.0-gke.0 C").toList

/-- A document with no marker. -/
def docC9 : List Char := ("no markers here").toList

/-- Two back-to-back date lines after a detected heading, then a later
heading. -/
def docC10 : List Char :=
  ("B" ++ "\n" ++ "Nov 14, 2025" ++ "\n" ++ "Nov 15, 2025" ++ "\n" ++ "C" ++ "\n"
    ++ "Dec 16, 2025" ++ "\n").toList

/-! ### Facts about the pattern matchers -/

theorem takeRun_le (p : Char → Bool) (s : List Char) : takeRun p s ≤ s.length := by
  induction s with
  | nil => simp [takeRun]
  | cons c rest ih =>
    simp only [takeRun, List.length_cons]
    split <;> omega

theorem lastNewline_spec {s : List Char} {k : Nat} (h : lastNewline s = some k) :
    k < s.length ∧ s[k]? = some '\n' := by
  induction s generalizing k with
  | nil => simp [lastNewline] at h
  | cons c rest ih =>
    simp only [lastNewline] at h
    cases hr : lastNewline rest with
    | some k' =>
      rw [hr] at h
      injection h with h
      subst h
      obtain ⟨h1, h2⟩ := ih hr
      refine ⟨by simp only [List.length_cons]; omega, ?_⟩
      simpa using h2
    | none =>
      rw [hr] at h
      by_cases hc : c = '\n'
      · subst hc
        simp only [if_pos rfl] at h
        injection h with h
        subst h
        simp
      · simp [hc] at h

theorem versionCore_bounds {s : List Char} {m : Nat} (h : versionCore s = some m) :
    1 ≤ m ∧ m ≤ s.length := by
  simp only [versionCore] at h
  split at h
  · exact Option.noConfusion h
  split at h <;> rename_i s1 heq1 <;> try exact Option.noConfusion h
  split at h
  · exact Option.noConfusion h
  split at h <;> rename_i s2 heq2 <;> try exact Option.noConfusion h
  split at h
  · exact Option.noConfusion h
  split at h <;> rename_i s3 heq3 <;> try exact Option.noConfusion h
  split at h
  · exact Option.noConfusion h
  injection h with h
  have l1 := congrArg List.length heq1
  have l2 := congrArg List.length heq2
  have l3 := congrArg List.length heq3
  simp only [List.length_drop, List.length_cons] at l1 l2 l3
  have t1 := takeRun_le isDigitB s
  have t2 := takeRun_le isDigitB s1
  have t3 := takeRun_le isDigitB s2
  have t4 := takeRun_le isDigitB s3
  omega

theorem reqRun_spec {p : Char → Bool} {s : List Char} {n : Nat} {s' : List Char}
    (h : reqRun p s = some (n, s')) : 1 ≤ n ∧ n ≤ s.length ∧ s' = s.drop n := by
  simp only [reqRun] at h
  split at h
  · exact Option.noConfusion h
  · rename_i hn
    simp only [Option.some.injEq, Prod.mk.injEq] at h
    obtain ⟨h1, h2⟩ := h
    subst h1
    subst h2
    exact ⟨by omega, takeRun_le p s, rfl⟩

theorem reqChar_spec {c : Char} {s s' : List Char} (h : reqChar c s = some s') :
    s = c :: s' := by
  cases s with
  | nil => simp [reqChar] at h
  | cons c0 rest =>
    simp only [reqChar] at h
    split at h
    · rename_i hc
      injection h with h
      subst h
      subst hc
      rfl
    · exact Option.noConfusion h

theorem headingTail_spec {s : List Char} {mt : Nat} (h : headingTail s = some mt) :
    mt ≤ s.length ∧ (mt = s.length ∨ (1 ≤ mt ∧ s[mt - 1]? = some '\n')) := by
  simp only [headingTail] at h
  split at h
  · rename_i hend
    injection h with h
    subst h
    exact ⟨by omega, Or.inl hend.symm⟩
  · rename_i hend
    split at h
    · rename_i k hln
      injection h with h
      subst h
      obtain ⟨hk1, hk2⟩ := lastNewline_spec hln
      have hwt := takeRun_le isSpaceB s
      simp only [List.length_take] at hk1
      have hk3 : k < takeRun isSpaceB s := by omega
      have hk4 : s[k]? = some '\n' := by
        rw [List.getElem?_take_of_lt hk3] at hk2
        exact hk2
      refine ⟨by omega, Or.inr ⟨by omega, ?_⟩⟩
      simpa using hk4
    · exact Option.noConfusion h

theorem headingCore_bounds {s : List Char} {m : Nat} (h : headingCore s = some m) :
    1 ≤ m ∧ m ≤ s.length ∧ (m = s.length ∨ s[m - 1]? = some '\n') := by
  simp only [headingCore, optRun] at h
  split at h
  · exact Option.noConfusion h
  rename_i l1 s2 heq1
  split at h
  · exact Option.noConfusion h
  rename_i w2 s3 heq2
  split at h
  · exact Option.noConfusion h
  rename_i d1 s4 heq3
  split at h
  · exact Option.noConfusion h
  rename_i s5 heq4
  split at h
  · exact Option.noConfusion h
  rename_i w3 s6 heq5
  split at h
  · exact Option.noConfusion h
  rename_i d2 s7 heq6
  split at h
  · exact Option.noConfusion h
  rename_i mt heq7
  injection h with h
  obtain ⟨ha1, ha2, ha3⟩ := reqRun_spec heq1
  subst ha3
  obtain ⟨hb1, hb2, hb3⟩ := reqRun_spec heq2
  subst hb3
  obtain ⟨hc1, hc2, hc3⟩ := reqRun_spec heq3
  subst hc3
  have hd0 := reqChar_spec heq4
  have hd1 := congrArg List.length hd0
  have hd3 : s5 = List.drop 1 (List.drop d1 (List.drop w2 (List.drop l1
      (List.drop (takeRun isSpaceB s) s)))) := by rw [hd0]; simp
  subst hd3
  obtain ⟨he1, he2, he3⟩ := reqRun_spec heq5
  subst he3
  obtain ⟨hf1, hf2, hf3⟩ := reqRun_spec heq6
  subst hf3
  obtain ⟨hg1, hg2⟩ := headingTail_spec heq7
  have hw1 := takeRun_le isSpaceB s
  simp only [List.drop_drop, List.length_drop, List.length_cons] at hd1 he2 hf2 hg1 hg2 ⊢
  subst h
  refine ⟨by omega, by omega, ?_⟩
  rcases hg2 with hg2 | ⟨hg2a, hg2b⟩
  · exact Or.inl (by omega)
  · right
    rw [List.getElem?_drop] at hg2b
    have harith : takeRun isSpaceB s + l1 + w2 + d1 + 1 + w3 + d2 + mt - 1 =
        takeRun isSpaceB s + (l1 + (w2 + (d1 + (1 + (w3 + d2))))) + (mt - 1) := by
      omega
    rw [harith]
    convert hg2b using 2
    omega

theorem versionMatchLen_bounds {doc : List Char} {pos m : Nat}
    (h : versionMatchLen doc pos = some m) : 1 ≤ m ∧ pos + m ≤ doc.length := by
  have hb := versionCore_bounds h
  simp only [List.length_drop] at hb
  omega

theorem headingMatchLen_bounds {doc : List Char} {pos m : Nat}
    (h : headingMatchLen doc pos = some m) :
    1 ≤ m ∧ pos + m ≤ doc.length ∧ (pos = 0 ∨ doc[pos]? = some '\n') ∧
      (pos + m = doc.length ∨ doc[pos + m - 1]? = some '\n') := by
  simp only [headingMatchLen] at h
  split at h
  · rename_i h0
    subst h0
    obtain ⟨h1, h2, h3⟩ := headingCore_bounds h
    exact ⟨h1, by omega, Or.inl rfl, by simpa using h3⟩
  · rename_i h0
    split at h <;> try exact Option.noConfusion h
    rename_i rest hdrop
    split at h <;> try exact Option.noConfusion h
    rename_i m' hcore
    injection h with h
    subst h
    obtain ⟨h1, h2, h3⟩ := headingCore_bounds hcore
    have hlen := congrArg List.length hdrop
    simp only [List.length_drop, List.length_cons] at hlen
    have hget : doc[pos]? = some '\n' := by
      have hx : (doc.drop pos)[0]? = some '\n' := by rw [hdrop]; simp
      rw [List.getElem?_drop] at hx
      simpa using hx
    have hrest : rest = doc.drop (pos + 1) := by
      have hx : (doc.drop pos).drop 1 = rest := by rw [hdrop]; simp
      rw [List.drop_drop] at hx
      exact hx.symm
    refine ⟨by omega, by omega, Or.inr hget, ?_⟩
    rcases h3 with h3 | h3
    · left
      omega
    · right
      rw [hrest, List.getElem?_drop] at h3
      have harith : pos + (m' + 1) - 1 = pos + 1 + (m' - 1) := by omega
      rw [harith]
      exact h3

theorem findAllAux_facts {matchLen : List Char → Nat → Option Nat} {doc : List Char}
    (hb : ∀ pos m, matchLen doc pos = some m → 1 ≤ m ∧ pos + m ≤ doc.length) :
    ∀ (fuel pos : Nat) (loc : Nat × Nat), loc ∈ findAllAux matchLen fuel doc pos →
      pos ≤ loc.1 ∧ loc.1 < loc.2 ∧ loc.2 ≤ doc.length ∧
        matchLen doc loc.1 = some (loc.2 - loc.1) := by
  intro fuel
  induction fuel with
  | zero =>
    intro pos loc h
    simp [findAllAux] at h
  | succ fuel ih =>
    intro pos loc h
    simp only [findAllAux] at h
    split at h
    · rename_i hpos
      split at h
      · rename_i len hml
        rcases List.mem_cons.mp h with h | h
        · subst h
          have hlen := hb pos len hml
          refine ⟨le_refl _, by omega, by omega, ?_⟩
          have harith : pos + len - pos = len := by omega
          simpa [harith] using hml
        · have := ih (pos + len) loc h
          exact ⟨by omega, this.2.1, this.2.2.1, this.2.2.2⟩
      · have := ih (pos + 1) loc h
        exact ⟨by omega, this.2.1, this.2.2.1, this.2.2.2⟩
    · simp at h

theorem findAllAux_pairwise {matchLen : List Char → Nat → Option Nat} {doc : List Char}
    (hb : ∀ pos m, matchLen doc pos = some m → 1 ≤ m ∧ pos + m ≤ doc.length) :
    ∀ (fuel pos : Nat),
      List.Pairwise (fun a b => a.2 ≤ b.1) (findAllAux matchLen fuel doc pos) := by
  intro fuel
  induction fuel with
  | zero =>
    intro pos
    simp [findAllAux]
  | succ fuel ih =>
    intro pos
    simp only [findAllAux]
    split
    · split
      · rename_i len hml
        refine List.Pairwise.cons ?_ (ih _)
        intro b hbmem
        have := findAllAux_facts hb fuel (pos + len) b hbmem
        simp only
        omega
      · exact ih _
    · simp

theorem versionLocations_mem {doc : List Char} {loc : Nat × Nat}
    (h : loc ∈ versionLocations doc) :
    loc.1 < loc.2 ∧ loc.2 ≤ doc.length ∧
      versionMatchLen doc loc.1 = some (loc.2 - loc.1) := by
  have := findAllAux_facts (fun pos m hm => versionMatchLen_bounds hm) _ 0 loc h
  exact ⟨this.2.1, this.2.2.1, this.2.2.2⟩

theorem versionLocations_pairwise (doc : List Char) :
    List.Pairwise (fun a b => a.2 ≤ b.1) (versionLocations doc) :=
  findAllAux_pairwise (fun pos m hm => versionMatchLen_bounds hm) _ 0

theorem headingLocations_mem {doc : List Char} {loc : Nat × Nat}
    (h : loc ∈ headingLocations doc) :
    loc.1 < loc.2 ∧ loc.2 ≤ doc.length ∧ (loc.1 = 0 ∨ doc[loc.1]? = some '\n') ∧
      (loc.2 = doc.length ∨ doc[loc.2 - 1]? = some '\n') := by
  have hfacts := findAllAux_facts
    (fun pos m hm => ⟨(headingMatchLen_bounds hm).1, (headingMatchLen_bounds hm).2.1⟩)
    _ 0 loc h
  obtain ⟨-, hlt, hle, hml⟩ := hfacts
  obtain ⟨h1, h2, h3, h4⟩ := headingMatchLen_bounds hml
  have harith : loc.1 + (loc.2 - loc.1) = loc.2 := by omega
  rw [harith] at h4
  exact ⟨hlt, hle, h3, h4⟩

theorem headingLocations_pairwise (doc : List Char) :
    List.Pairwise (fun a b => a.2 ≤ b.1) (headingLocations doc) :=
  findAllAux_pairwise
    (fun pos m hm => ⟨(headingMatchLen_bounds hm).1, (headingMatchLen_bounds hm).2.1⟩) _ 0

/-! ### Slicing toolkit -/

theorem sliceL_append {doc : List Char} {a b c : Nat} (h1 : a ≤ b) (h2 : b ≤ c) :
    sliceL doc a b ++ sliceL doc b c = sliceL doc a c := by
  unfold sliceL
  have e1 : c - a = (b - a) + (c - b) := by omega
  rw [e1, List.take_add]
  congr 2
  rw [List.drop_drop]
  congr 1
  omega

theorem sliceL_zero (doc : List Char) (b : Nat) : sliceL doc 0 b = doc.take b := by
  simp [sliceL]

theorem sliceL_length (doc : List Char) (a b : Nat) (h1 : a ≤ b) (h2 : b ≤ doc.length) :
    (sliceL doc a b).length = b - a := by
  simp only [sliceL, List.length_take, List.length_drop]
  omega

/-! ### The version order -/

theorem cmpParsed_self (a : Int × Int × Int × Int) : cmpParsed a a = 0 := by
  obtain ⟨a1, a2, a3, a4⟩ := a
  simp [cmpParsed]

theorem cmpParsed_nonneg (a b : Int × Int × Int × Int) :
    0 ≤ cmpParsed a b ↔ vle a b := by
  obtain ⟨a1, a2, a3, a4⟩ := a
  obtain ⟨b1, b2, b3, b4⟩ := b
  simp only [cmpParsed, vle]
  split_ifs <;> omega

theorem cmpParsed_nonpos (a b : Int × Int × Int × Int) :
    cmpParsed a b ≤ 0 ↔ vle b a := by
  obtain ⟨a1, a2, a3, a4⟩ := a
  obtain ⟨b1, b2, b3, b4⟩ := b
  simp only [cmpParsed, vle]
  split_ifs <;> omega

theorem cmpParsed_zero_iff (a b : Int × Int × Int × Int) :
    cmpParsed a b = 0 ↔ a = b := by
  obtain ⟨a1, a2, a3, a4⟩ := a
  obtain ⟨b1, b2, b3, b4⟩ := b
  simp only [cmpParsed, Prod.mk.injEq]
  split_ifs <;> first | omega | (simp only [false_iff, true_iff, not_and]; omega)

theorem cmpParsed_flip (a b : Int × Int × Int × Int) :
    cmpParsed a b = - cmpParsed b a := by
  obtain ⟨a1, a2, a3, a4⟩ := a
  obtain ⟨b1, b2, b3, b4⟩ := b
  simp only [cmpParsed]
  split_ifs <;> omega

theorem cmpParsed_cases (a b : Int × Int × Int × Int) :
    cmpParsed a b = -1 ∨ cmpParsed a b = 0 ∨ cmpParsed a b = 1 := by
  obtain ⟨a1, a2, a3, a4⟩ := a
  obtain ⟨b1, b2, b3, b4⟩ := b
  simp only [cmpParsed]
  split_ifs <;> omega

theorem vle_refl (a : Int × Int × Int × Int) : vle a a := by
  simp [vle]

theorem vle_trans {a b c : Int × Int × Int × Int} (h1 : vle a b) (h2 : vle b c) :
    vle a c := by
  obtain ⟨a1, a2, a3, a4⟩ := a
  obtain ⟨b1, b2, b3, b4⟩ := b
  obtain ⟨c1, c2, c3, c4⟩ := c
  simp only [vle] at h1 h2 ⊢
  omega

theorem vle_antisymm {a b : Int × Int × Int × Int} (h1 : vle a b) (h2 : vle b a) :
    a = b := by
  obtain ⟨a1, a2, a3, a4⟩ := a
  obtain ⟨b1, b2, b3, b4⟩ := b
  simp only [vle] at h1 h2
  simp only [Prod.mk.injEq]
  omega

theorem vle_total (a b : Int × Int × Int × Int) : vle a b ∨ vle b a := by
  obtain ⟨a1, a2, a3, a4⟩ := a
  obtain ⟨b1, b2, b3, b4⟩ := b
  simp only [vle]
  omega

theorem compareVersions_eq_some {a b : List Char} {pa pb : Int × Int × Int × Int}
    (ha : parseGkeVersion a = some pa) (hb : parseGkeVersion b = some pb) :
    compareVersions a b = some (cmpParsed pa pb) := by
  simp [compareVersions, ha, hb]

theorem compareVersions_none_right {a b : List Char}
    (hb : parseGkeVersion b = none) : compareVersions a b = none := by
  unfold compareVersions
  cases parseGkeVersion a <;> simp [hb]

theorem compareVersions_some_inv {a b : List Char} {c : Int}
    (h : compareVersions a b = some c) :
    ∃ pa pb, parseGkeVersion a = some pa ∧ parseGkeVersion b = some pb ∧
      c = cmpParsed pa pb := by
  unfold compareVersions at h
  cases ha : parseGkeVersion a with
  | none => rw [ha] at h; exact Option.noConfusion h
  | some pa =>
    rw [ha] at h
    cases hb : parseGkeVersion b with
    | none => rw [hb] at h; exact Option.noConfusion h
    | some pb =>
      rw [hb] at h
      injection h with h
      exact ⟨pa, pb, rfl, rfl, h.symm⟩

/-! ### Characterization of the border-selection loops -/

theorem borderScan_char (stop isEq : Nat × Nat → Bool) :
    ∀ (locs : List (Nat × Nat)) (prev : Option (Nat × Nat)),
      borderScan stop isEq locs prev =
        match firstStop stop locs with
        | none => none
        | some 0 => some (if isEq (locs.getD 0 (0, 0)) then locs.getD 0 (0, 0)
                          else prev.getD (locs.getD 0 (0, 0)))
        | some (i + 1) => some (if isEq (locs.getD (i + 1) (0, 0)) then locs.getD (i + 1) (0, 0)
                                else locs.getD i (0, 0)) := by
  intro locs
  induction locs with
  | nil => intro prev; rfl
  | cons loc rest ih =>
    intro prev
    simp only [borderScan, firstStop]
    by_cases hs : stop loc
    · simp [hs]
    · simp only [hs, Bool.false_eq_true, if_false]
      rw [ih (some loc)]
      cases hf : firstStop stop rest with
      | none => simp
      | some j =>
        cases j with
        | zero => simp
        | succ k => simp

theorem firstStop_spec {p : Nat × Nat → Bool} :
    ∀ {locs : List (Nat × Nat)} {i : Nat}, firstStop p locs = some i →
      i < locs.length ∧ p (locs.getD i (0, 0)) = true ∧
        ∀ j, j < i → p (locs.getD j (0, 0)) = false := by
  intro locs
  induction locs with
  | nil => intro i h; simp [firstStop] at h
  | cons loc rest ih =>
    intro i h
    simp only [firstStop] at h
    by_cases hp : p loc
    · rw [if_pos hp] at h
      injection h with h
      subst h
      exact ⟨by simp, by simpa using hp, fun j hj => absurd hj (by omega)⟩
    · rw [if_neg hp] at h
      cases hf : firstStop p rest with
      | none => rw [hf] at h; exact Option.noConfusion h
      | some k =>
        rw [hf] at h
        simp only [Option.map_some'] at h
        injection h with h
        subst h
        obtain ⟨h1, h2, h3⟩ := ih hf
        have hploc : p loc = false := by revert hp; cases p loc <;> simp
        refine ⟨by simp only [List.length_cons]; omega, by simpa using h2, ?_⟩
        intro j hj
        cases j with
        | zero => simpa using hploc
        | succ j2 =>
          simp only [List.getD_cons_succ]
          exact h3 j2 (by omega)

theorem firstStop_none {p : Nat × Nat → Bool} :
    ∀ {locs : List (Nat × Nat)}, firstStop p locs = none →
      ∀ loc ∈ locs, p loc = false := by
  intro locs
  induction locs with
  | nil => intro _ loc h; simp at h
  | cons l0 rest ih =>
    intro h loc hm
    simp only [firstStop] at h
    by_cases hp : p l0
    · rw [if_pos hp] at h; exact Option.noConfusion h
    · rw [if_neg hp] at h
      rcases List.mem_cons.mp hm with rfl | hm
      · revert hp; cases p loc <;> simp
      · cases hf : firstStop p rest with
        | none => exact ih hf loc hm
        | some k => rw [hf] at h; simp at h

theorem firstStop_isSome_of_mem {p : Nat × Nat → Bool} :
    ∀ {locs : List (Nat × Nat)} {loc : Nat × Nat}, loc ∈ locs → p loc = true →
      ∃ i, firstStop p locs = some i := by
  intro locs
  induction locs with
  | nil => intro loc h; simp at h
  | cons l0 rest ih =>
    intro loc hm hp
    simp only [firstStop]
    by_cases h0 : p l0
    · exact ⟨0, by rw [if_pos h0]⟩
    · rcases List.mem_cons.mp hm with rfl | hm
      · exact absurd hp (by simpa using h0)
      · obtain ⟨i, hi⟩ := ih hm hp
        exact ⟨i + 1, by rw [if_neg h0, hi]; rfl⟩

theorem firstStop_mono {p q : Nat × Nat → Bool}
    (himp : ∀ loc, p loc = true → q loc = true) :
    ∀ {locs : List (Nat × Nat)} {i : Nat}, firstStop p locs = some i →
      ∃ j, firstStop q locs = some j ∧ j ≤ i := by
  intro locs
  induction locs with
  | nil => intro i h; simp [firstStop] at h
  | cons l0 rest ih =>
    intro i h
    simp only [firstStop] at h ⊢
    by_cases hq : q l0
    · exact ⟨0, by rw [if_pos hq], by omega⟩
    · have hp : ¬ p l0 = true := fun hc => hq (himp l0 hc)
      rw [if_neg hp] at h
      cases hf : firstStop p rest with
      | none => rw [hf] at h; simp at h
      | some k =>
        rw [hf] at h
        simp only [Option.map_some'] at h
        injection h with h
        subst h
        obtain ⟨j, hj1, hj2⟩ := ih hf
        exact ⟨j + 1, by rw [if_neg hq, hj1]; rfl, by omega⟩

theorem starts_mono {locs : List (Nat × Nat)}
    (hpw : List.Pairwise (fun a b => a.2 ≤ b.1) locs)
    (hlt : ∀ loc ∈ locs, loc.1 < loc.2) :
    ∀ i j, i ≤ j → j < locs.length → (locs.getD i (0, 0)).1 ≤ (locs.getD j (0, 0)).1 := by
  intro i j hij hj
  rcases Nat.eq_or_lt_of_le hij with rfl | hij2
  · exact le_refl _
  · have hi : i < locs.length := by omega
    rw [List.getD_eq_getElem locs (0, 0) hi, List.getD_eq_getElem locs (0, 0) hj]
    have hrel := List.pairwise_iff_get.mp hpw ⟨i, hi⟩ ⟨j, hj⟩ (Fin.mk_lt_mk.mpr hij2)
    simp only [List.get_eq_getElem] at hrel
    have hmem : locs[i] ∈ locs := List.getElem_mem hi
    have := hlt _ hmem
    omega

theorem ends_antimono {locs : List (Nat × Nat)}
    (hpw : List.Pairwise (fun a b => b.2 ≤ a.1) locs)
    (hlt : ∀ loc ∈ locs, loc.1 < loc.2) :
    ∀ i j, i ≤ j → j < locs.length → (locs.getD j (0, 0)).2 ≤ (locs.getD i (0, 0)).2 := by
  intro i j hij hj
  rcases Nat.eq_or_lt_of_le hij with rfl | hij2
  · exact le_refl _
  · have hi : i < locs.length := by omega
    rw [List.getD_eq_getElem locs (0, 0) hi, List.getD_eq_getElem locs (0, 0) hj]
    have hrel := List.pairwise_iff_get.mp hpw ⟨i, hi⟩ ⟨j, hj⟩ (Fin.mk_lt_mk.mpr hij2)
    simp only [List.get_eq_getElem] at hrel
    have hmem : locs[i] ∈ locs := List.getElem_mem hi
    have := hlt _ hmem
    omega

theorem borderScan_mem {stop isEq : Nat × Nat → Bool} :
    ∀ {locs : List (Nat × Nat)} {prev : Option (Nat × Nat)} {res : Nat × Nat},
      borderScan stop isEq locs prev = some res → res ∈ locs ∨ prev = some res := by
  intro locs
  induction locs with
  | nil => intro prev res h; simp [borderScan] at h
  | cons l0 rest ih =>
    intro prev res h
    simp only [borderScan] at h
    split at h
    · injection h with h
      split at h
      · left; rw [← h]; exact List.mem_cons_self _ _
      · cases prev with
        | none => left; rw [← h]; exact List.mem_cons_self _ _
        | some pv => right; rw [← h]; rfl
    · rcases ih h with hm | hp
      · exact Or.inl (List.mem_cons_of_mem _ hm)
      · left
        injection hp with hp
        rw [← hp]
        exact List.mem_cons_self _ _

/-! ### Window-level lemmas -/

theorem mem_of_head?_eq_some {l : List (Nat × Nat)} {x : Nat × Nat}
    (h : l.head? = some x) : x ∈ l := by
  cases l with
  | nil => simp at h
  | cons a t =>
    simp only [List.head?_cons, Option.some.injEq] at h
    rw [← h]
    exact List.mem_cons_self _ _

theorem preWindow_fst_le (doc sv tv : List Char) :
    (preWindow doc sv tv).1 ≤ doc.length := by
  simp only [preWindow]
  cases hsc : borderScan (stopsL doc tv) (eqVer doc tv) (versionLocations doc) none with
  | none => simp
  | some res =>
    simp only
    rcases borderScan_mem hsc with hm | hp
    · have := versionLocations_mem hm
      omega
    · exact Option.noConfusion hp

theorem preWindow_snd_le (doc sv tv : List Char) :
    (preWindow doc sv tv).2 ≤ doc.length := by
  simp only [preWindow]
  cases hsc : borderScan (stopsR doc sv) (eqVer doc sv)
      (versionLocations doc).reverse none with
  | none => simp
  | some res =>
    simp only
    rcases borderScan_mem hsc with hm | hp
    · have := versionLocations_mem (List.mem_reverse.mp hm)
      omega
    · exact Option.noConfusion hp

theorem leftAppendOf_slice {doc : List Char} {lb : Nat} (h : lb ≤ doc.length) :
    leftAppendOf doc lb = sliceL doc (leftEdge doc lb) lb ∧ leftEdge doc lb ≤ lb := by
  unfold leftAppendOf leftEdge
  by_cases h0 : lb = 0
  · subst h0
    simp [sliceL, headingLocations, findAllIdx, findAllAux]
  · have hlen : (doc.take lb).length = lb := by
      simp only [List.length_take]
      omega
    rw [if_neg (by omega)]
    split <;> rename_i hl
    · refine ⟨?_, by omega⟩
      simp [sliceL]
    · rename_i hd
      have hmem := List.mem_of_getLast?_eq_some hl
      have hb := headingLocations_mem hmem
      rw [hlen] at hb
      refine ⟨?_, by omega⟩
      rw [List.drop_take]
      rfl

theorem rightAppendOf_slice {doc : List Char} {rb : Nat} (h : rb ≤ doc.length) :
    rightAppendOf doc rb = sliceL doc rb (rightEdge doc rb) ∧
      rb ≤ rightEdge doc rb ∧ rightEdge doc rb ≤ doc.length := by
  unfold rightAppendOf rightEdge
  have hlen : (doc.drop rb).length = doc.length - rb := by simp
  by_cases h0 : (doc.drop rb).length = 0
  · rw [if_pos h0]
    have hnil : doc.drop rb = [] := List.eq_nil_of_length_eq_zero h0
    rw [hnil]
    have hloc : headingLocations ([] : List Char) = [] := by
      simp [headingLocations, findAllIdx, findAllAux]
    rw [hloc]
    simp only [List.head?_nil]
    refine ⟨?_, h, le_refl _⟩
    simp only [sliceL, hnil]
    simp
  · rw [if_neg h0]
    split <;> rename_i hh
    · refine ⟨?_, h, le_refl _⟩
      simp only [sliceL]
      rw [← hlen]
      exact (List.take_length _).symm
    · rename_i hd
      have hmem := mem_of_head?_eq_some hh
      have hb := headingLocations_mem hmem
      rw [hlen] at hb
      refine ⟨?_, by omega, by omega⟩
      simp only [sliceL]
      congr 1
      omega

theorem extract_eq_edges {doc sv tv : List Char} {lb rb : Nat}
    (hw : preWindow doc sv tv = (lb, rb)) (hle : lb ≤ rb) :
    extractReleaseNotesRelevantForUpgrade doc sv tv =
      some (sliceL doc (leftEdge doc lb) (rightEdge doc rb)) ∧
    finalWindow doc sv tv = some (leftEdge doc lb, rightEdge doc rb) := by
  have hlb : lb ≤ doc.length := by
    have := preWindow_fst_le doc sv tv
    rw [hw] at this
    exact this
  have hrb : rb ≤ doc.length := by
    have := preWindow_snd_le doc sv tv
    rw [hw] at this
    exact this
  obtain ⟨hl1, hl2⟩ := leftAppendOf_slice hlb
  obtain ⟨hr1, hr2, hr3⟩ := rightAppendOf_slice hrb
  have e1 : lb - (sliceL doc (leftEdge doc lb) lb).length = leftEdge doc lb := by
    rw [sliceL_length _ _ _ hl2 hlb]
    omega
  have e2 : rb + (sliceL doc rb (rightEdge doc rb)).length = rightEdge doc rb := by
    rw [sliceL_length _ _ _ hr2 hr3]
    omega
  constructor
  · simp only [extractReleaseNotesRelevantForUpgrade, hw]
    rw [if_pos hle]
    rw [hl1, hr1]
    rw [sliceL_append hl2 hle, sliceL_append (le_trans hl2 hle) hr2]
  · simp only [finalWindow, hw]
    rw [if_pos hle]
    rw [hl1, hr1, e1, e2]

/-! ### Relating the loop predicates to the version order -/

theorem stopsL_iff {doc tv : List Char} {loc : Nat × Nat} {pv vt : Int × Int × Int × Int}
    (hp : parseGkeVersion (sliceL doc loc.1 loc.2) = some pv)
    (ht : parseGkeVersion tv = some vt) :
    stopsL doc tv loc = true ↔ vle pv vt := by
  unfold stopsL
  rw [compareVersions_eq_some hp ht]
  simp [cmpParsed_nonneg]

theorem stopsR_iff {doc sv : List Char} {loc : Nat × Nat} {pv vs : Int × Int × Int × Int}
    (hp : parseGkeVersion (sliceL doc loc.1 loc.2) = some pv)
    (hs : parseGkeVersion sv = some vs) :
    stopsR doc sv loc = true ↔ vle vs pv := by
  unfold stopsR
  rw [compareVersions_eq_some hp hs]
  simp [cmpParsed_nonpos]

theorem eqVer_iff {doc v : List Char} {loc : Nat × Nat} {pv vv : Int × Int × Int × Int}
    (hp : parseGkeVersion (sliceL doc loc.1 loc.2) = some pv)
    (hv : parseGkeVersion v = some vv) :
    eqVer doc v loc = true ↔ pv = vv := by
  unfold eqVer
  rw [compareVersions_eq_some hp hv]
  simp [cmpParsed_zero_iff]

theorem stopsL_parse {doc tv : List Char} {loc : Nat × Nat}
    (h : stopsL doc tv loc = true) :
    ∃ pv vt, parseGkeVersion (sliceL doc loc.1 loc.2) = some pv ∧
      parseGkeVersion tv = some vt := by
  unfold stopsL at h
  cases hc : compareVersions (sliceL doc loc.1 loc.2) tv with
  | none => rw [hc] at h; simp at h
  | some c =>
    obtain ⟨pa, pb, h1, h2, -⟩ := compareVersions_some_inv hc
    exact ⟨pa, pb, h1, h2⟩

theorem stopsR_parse {doc sv : List Char} {loc : Nat × Nat}
    (h : stopsR doc sv loc = true) :
    ∃ pv vs, parseGkeVersion (sliceL doc loc.1 loc.2) = some pv ∧
      parseGkeVersion sv = some vs := by
  unfold stopsR at h
  cases hc : compareVersions (sliceL doc loc.1 loc.2) sv with
  | none => rw [hc] at h; simp at h
  | some c =>
    obtain ⟨pa, pb, h1, h2, -⟩ := compareVersions_some_inv hc
    exact ⟨pa, pb, h1, h2⟩

/-! ### Bounds on the selected borders -/

theorem leftBorder_le_of_stop {doc tv : List Char} {loc : Nat × Nat}
    (hm : loc ∈ versionLocations doc) (hs : stopsL doc tv loc = true) :
    ∃ res, borderScan (stopsL doc tv) (eqVer doc tv) (versionLocations doc) none = some res ∧
      res.1 ≤ loc.1 := by
  have hpw := versionLocations_pairwise doc
  have hlt : ∀ l ∈ versionLocations doc, l.1 < l.2 :=
    fun l hl => (versionLocations_mem hl).1
  obtain ⟨i, hi⟩ := firstStop_isSome_of_mem hm hs
  obtain ⟨hilen, hip, himin⟩ := firstStop_spec hi
  obtain ⟨⟨j, hjlen⟩, hj⟩ := List.mem_iff_get.mp hm
  simp only [List.get_eq_getElem] at hj
  have hij : i ≤ j := by
    by_contra hc
    have := himin j (by omega)
    rw [List.getD_eq_getElem _ _ hjlen, hj, hs] at this
    exact Bool.noConfusion this
  have hjd : (versionLocations doc).getD j (0, 0) = loc := by
    rw [List.getD_eq_getElem _ _ hjlen, hj]
  rw [borderScan_char]
  rw [hi]
  cases i with
  | zero =>
    refine ⟨_, rfl, ?_⟩
    have hmono := starts_mono hpw hlt 0 j (by omega) hjlen
    rw [hjd] at hmono
    split <;> simpa using hmono
  | succ k =>
    refine ⟨_, rfl, ?_⟩
    have hmono1 := starts_mono hpw hlt (k + 1) j hij hjlen
    have hmono2 := starts_mono hpw hlt k j (by omega) hjlen
    rw [hjd] at hmono1 hmono2
    split
    · exact hmono1
    · exact hmono2

theorem rightBorder_ge_of_stop {doc sv : List Char} {loc : Nat × Nat}
    (hm : loc ∈ versionLocations doc) (hs : stopsR doc sv loc = true) :
    ∃ res, borderScan (stopsR doc sv) (eqVer doc sv)
        (versionLocations doc).reverse none = some res ∧ loc.2 ≤ res.2 := by
  have hpw : List.Pairwise (fun a b => b.2 ≤ a.1) (versionLocations doc).reverse :=
    List.pairwise_reverse.mpr (versionLocations_pairwise doc)
  have hlt : ∀ l ∈ (versionLocations doc).reverse, l.1 < l.2 :=
    fun l hl => (versionLocations_mem (List.mem_reverse.mp hl)).1
  have hmr : loc ∈ (versionLocations doc).reverse := List.mem_reverse.mpr hm
  obtain ⟨i, hi⟩ := firstStop_isSome_of_mem hmr hs
  obtain ⟨hilen, hip, himin⟩ := firstStop_spec hi
  obtain ⟨⟨j, hjlen⟩, hj⟩ := List.mem_iff_get.mp hmr
  simp only [List.get_eq_getElem] at hj
  have hij : i ≤ j := by
    by_contra hc
    have := himin j (by omega)
    rw [List.getD_eq_getElem _ _ hjlen, hj, hs] at this
    exact Bool.noConfusion this
  have hjd : ((versionLocations doc).reverse).getD j (0, 0) = loc := by
    rw [List.getD_eq_getElem _ _ hjlen, hj]
  rw [borderScan_char]
  rw [hi]
  cases i with
  | zero =>
    refine ⟨_, rfl, ?_⟩
    have hmono := ends_antimono hpw hlt 0 j (by omega) hjlen
    rw [hjd] at hmono
    split <;> simpa using hmono
  | succ k =>
    refine ⟨_, rfl, ?_⟩
    have hmono1 := ends_antimono hpw hlt (k + 1) j hij hjlen
    have hmono2 := ends_antimono hpw hlt k j (by omega) hjlen
    rw [hjd] at hmono1 hmono2
    split
    · exact hmono1
    · exact hmono2

/-! ### Declarative characterization of the two borders -/

theorem preWindow_fst_eq_spec (doc sv tv : List Char) :
    (preWindow doc sv tv).1 = specLeftBorder doc tv := by
  simp only [preWindow, specLeftBorder]
  rw [borderScan_char]
  cases hf : firstStop (stopsL doc tv) (versionLocations doc) with
  | none => simp
  | some i =>
    cases i with
    | zero => simp
    | succ k =>
      simp
      split <;> rfl

theorem preWindow_snd_eq_spec (doc sv tv : List Char) :
    (preWindow doc sv tv).2 = specRightBorder doc sv := by
  simp only [preWindow, specRightBorder]
  rw [borderScan_char]
  cases hf : firstStop (stopsR doc sv) (versionLocations doc).reverse with
  | none => simp
  | some i =>
    cases i with
    | zero => simp
    | succ k =>
      simp
      split <;> rfl

/-! ### Monotonicity of the borders in the version range -/

theorem leftBranch_bounds {locs : List (Nat × Nat)}
    (hpw : List.Pairwise (fun a b => a.2 ≤ b.1) locs)
    (hltm : ∀ l ∈ locs, l.1 < l.2)
    (cond : Prop) [Decidable cond] (i : Nat) (hi : i < locs.length) :
    (locs.getD (i - 1) (0, 0)).1 ≤
      (if cond then (locs.getD i (0, 0)).1
       else if i = 0 then (locs.getD 0 (0, 0)).1 else (locs.getD (i - 1) (0, 0)).1) ∧
    (if cond then (locs.getD i (0, 0)).1
     else if i = 0 then (locs.getD 0 (0, 0)).1 else (locs.getD (i - 1) (0, 0)).1) ≤
      (locs.getD i (0, 0)).1 := by
  have m := starts_mono hpw hltm (i - 1) i (by omega) hi
  split
  · exact ⟨m, le_refl _⟩
  · by_cases hi0 : i = 0
    · subst hi0
      simp
    · rw [if_neg hi0]
      exact ⟨le_refl _, m⟩

theorem rightBranch_bounds {locs : List (Nat × Nat)}
    (hpw : List.Pairwise (fun a b => b.2 ≤ a.1) locs)
    (hltm : ∀ l ∈ locs, l.1 < l.2)
    (cond : Prop) [Decidable cond] (i : Nat) (hi : i < locs.length) :
    (locs.getD i (0, 0)).2 ≤
      (if cond then (locs.getD i (0, 0)).2
       else if i = 0 then (locs.getD 0 (0, 0)).2 else (locs.getD (i - 1) (0, 0)).2) ∧
    (if cond then (locs.getD i (0, 0)).2
     else if i = 0 then (locs.getD 0 (0, 0)).2 else (locs.getD (i - 1) (0, 0)).2) ≤
      (locs.getD (i - 1) (0, 0)).2 := by
  have m := ends_antimono hpw hltm (i - 1) i (by omega) hi
  split
  · exact ⟨le_refl _, m⟩
  · by_cases hi0 : i = 0
    · subst hi0
      simp
    · rw [if_neg hi0]
      exact ⟨m, le_refl _⟩

theorem specLeftBorder_mono {doc t t' : List Char} {vt vt' : Int × Int × Int × Int}
    (ht : parseGkeVersion t = some vt) (ht' : parseGkeVersion t' = some vt')
    (hlev : vle vt vt')
    (hstop : ∃ loc ∈ versionLocations doc, stopsL doc t loc = true) :
    specLeftBorder doc t' ≤ specLeftBorder doc t := by
  have himp : ∀ loc, stopsL doc t loc = true → stopsL doc t' loc = true := by
    intro loc hs
    obtain ⟨pv, vt0, hp, ht0⟩ := stopsL_parse hs
    rw [ht] at ht0
    injection ht0 with ht0
    subst ht0
    rw [stopsL_iff hp ht] at hs
    rw [stopsL_iff hp ht']
    exact vle_trans hs hlev
  obtain ⟨loc, hm, hs⟩ := hstop
  obtain ⟨i, hi⟩ := firstStop_isSome_of_mem hm hs
  obtain ⟨j, hj, hji⟩ := firstStop_mono himp hi
  have hpw := versionLocations_pairwise doc
  have hltm : ∀ l ∈ versionLocations doc, l.1 < l.2 :=
    fun l hl => (versionLocations_mem hl).1
  obtain ⟨hilen, hip, -⟩ := firstStop_spec hi
  obtain ⟨hjlen, hjp, -⟩ := firstStop_spec hj
  simp only [specLeftBorder]
  rw [hi, hj]
  simp only [Option.elim]
  rcases Nat.eq_or_lt_of_le hji with rfl | hlt2
  · obtain ⟨pv, vt0, hp, ht0⟩ := stopsL_parse hip
    rw [ht] at ht0
    injection ht0 with ht0
    subst ht0
    by_cases heq2 : eqVer doc t' ((versionLocations doc).getD j (0, 0)) = true
    · have hpvt : pv = vt' := (eqVer_iff hp ht').mp heq2
      have hvle := (stopsL_iff hp ht).mp hip
      have hvv : vt = vt' := vle_antisymm hlev (hpvt ▸ hvle)
      have heqt : eqVer doc t ((versionLocations doc).getD j (0, 0)) = true := by
        rw [eqVer_iff hp ht, hpvt, hvv]
      rw [if_pos heq2, if_pos heqt]
    · rw [if_neg heq2]
      have m := starts_mono hpw hltm (j - 1) j (by omega) hjlen
      by_cases hj0 : j = 0
      · subst hj0
        rw [if_pos rfl]
        split <;> exact le_refl _
      · rw [if_neg hj0]
        split
        · exact m
        · exact le_refl _
  · have hb1 := leftBranch_bounds hpw hltm
      (eqVer doc t' ((versionLocations doc).getD j (0, 0)) = true) j hjlen
    have hb2 := leftBranch_bounds hpw hltm
      (eqVer doc t ((versionLocations doc).getD i (0, 0)) = true) i hilen
    have m := starts_mono hpw hltm j (i - 1) (by omega) (by omega)
    exact le_trans hb1.2 (le_trans m hb2.1)

theorem specRightBorder_mono {doc s s' : List Char} {vs vs' : Int × Int × Int × Int}
    (hs : parseGkeVersion s = some vs) (hs' : parseGkeVersion s' = some vs')
    (hlev : vle vs' vs)
    (hstop : ∃ loc ∈ versionLocations doc, stopsR doc s loc = true) :
    specRightBorder doc s ≤ specRightBorder doc s' := by
  have himp : ∀ loc, stopsR doc s loc = true → stopsR doc s' loc = true := by
    intro loc hss
    obtain ⟨pv, vs0, hp, hs0⟩ := stopsR_parse hss
    rw [hs] at hs0
    injection hs0 with hs0
    subst hs0
    rw [stopsR_iff hp hs] at hss
    rw [stopsR_iff hp hs']
    exact vle_trans hlev hss
  obtain ⟨loc, hm, hsl⟩ := hstop
  have hmr : loc ∈ (versionLocations doc).reverse := List.mem_reverse.mpr hm
  obtain ⟨i, hi⟩ := firstStop_isSome_of_mem hmr hsl
  obtain ⟨j, hj, hji⟩ := firstStop_mono himp hi
  have hpw : List.Pairwise (fun a b => b.2 ≤ a.1) (versionLocations doc).reverse :=
    List.pairwise_reverse.mpr (versionLocations_pairwise doc)
  have hltm : ∀ l ∈ (versionLocations doc).reverse, l.1 < l.2 :=
    fun l hl => (versionLocations_mem (List.mem_reverse.mp hl)).1
  obtain ⟨hilen, hip, -⟩ := firstStop_spec hi
  obtain ⟨hjlen, hjp, -⟩ := firstStop_spec hj
  simp only [specRightBorder]
  rw [hi, hj]
  simp only [Option.elim]
  rcases Nat.eq_or_lt_of_le hji with rfl | hlt2
  · obtain ⟨pv, vs0, hp, hs0⟩ := stopsR_parse hip
    rw [hs] at hs0
    injection hs0 with hs0
    subst hs0
    by_cases heq2 : eqVer doc s' (((versionLocations doc).reverse).getD j (0, 0)) = true
    · have hpvs : pv = vs' := (eqVer_iff hp hs').mp heq2
      have hvle := (stopsR_iff hp hs).mp hip
      have hvv : vs = vs' := vle_antisymm (hpvs ▸ hvle) hlev
      have heqs : eqVer doc s (((versionLocations doc).reverse).getD j (0, 0)) = true := by
        rw [eqVer_iff hp hs, hpvs, hvv]
      rw [if_pos heq2, if_pos heqs]
    · rw [if_neg heq2]
      have m := ends_antimono hpw hltm (j - 1) j (by omega) hjlen
      by_cases hj0 : j = 0
      · subst hj0
        rw [if_pos rfl]
        split <;> exact le_refl _
      · rw [if_neg hj0]
        split
        · exact m
        · exact le_refl _
  · have hb1 := rightBranch_bounds hpw hltm
      (eqVer doc s' (((versionLocations doc).reverse).getD j (0, 0)) = true) j hjlen
    have hb2 := rightBranch_bounds hpw hltm
      (eqVer doc s (((versionLocations doc).reverse).getD i (0, 0)) = true) i hilen
    have m := ends_antimono hpw hltm j (i - 1) (by omega) (by omega)
    exact le_trans hb2.2 (le_trans m hb1.1)

/-! ### Degenerate windows: skipped scans and markerless documents -/

theorem borderScan_none {stop isEq : Nat × Nat → Bool} (h : ∀ loc, stop loc = false) :
    ∀ (locs : List (Nat × Nat)) (prev : Option (Nat × Nat)),
      borderScan stop isEq locs prev = none := by
  intro locs
  induction locs with
  | nil => intro prev; rfl
  | cons l0 rest ih =>
    intro prev
    simp only [borderScan, h l0, Bool.false_eq_true, if_false]
    exact ih (some l0)

theorem stopsL_false_of_unparsable {doc tv : List Char}
    (htv : parseGkeVersion tv = none) (loc : Nat × Nat) : stopsL doc tv loc = false := by
  unfold stopsL
  rw [compareVersions_none_right htv]

theorem stopsR_false_of_unparsable {doc sv : List Char}
    (hsv : parseGkeVersion sv = none) (loc : Nat × Nat) : stopsR doc sv loc = false := by
  unfold stopsR
  rw [compareVersions_none_right hsv]

theorem preWindow_default_of_unparsable {doc sv tv : List Char}
    (hsv : parseGkeVersion sv = none) (htv : parseGkeVersion tv = none) :
    preWindow doc sv tv = (0, doc.length) := by
  simp only [preWindow]
  rw [borderScan_none (stopsL_false_of_unparsable htv),
    borderScan_none (stopsR_false_of_unparsable hsv)]

theorem preWindow_default_of_no_markers {doc sv tv : List Char}
    (h : versionLocations doc = []) : preWindow doc sv tv = (0, doc.length) := by
  simp only [preWindow, h, List.reverse_nil]
  rfl

theorem extract_full {doc sv tv : List Char}
    (hw : preWindow doc sv tv = (0, doc.length)) :
    extractReleaseNotesRelevantForUpgrade doc sv tv = some doc := by
  simp only [extractReleaseNotesRelevantForUpgrade, hw]
  rw [if_pos (by omega)]
  have h1 : leftAppendOf doc 0 = [] := by
    simp [leftAppendOf]
  have h2 : rightAppendOf doc doc.length = [] := by
    simp only [rightAppendOf, List.drop_length]
    simp
  rw [h1, h2]
  simp only [sliceL, List.drop_zero, Nat.sub_zero, List.nil_append, List.append_nil]
  rw [List.take_length]

/-! ### Characterizing parse failure -/

theorem atoi_neg_digits {ds : List Char} (h1 : ds ≠ [])
    (h2 : ds.all isDigitB = true) (h3 : digitsVal ds ≤ 9223372036854775808) :
    atoi ('-' :: ds) = some (-(digitsVal ds : Int)) := by
  simp only [atoi]
  rw [if_neg (by simpa [List.isEmpty_iff] using h1), if_pos h2, if_pos h3]

theorem atoi_plain_digits {ds : List Char} (h0 : ∀ t, ds ≠ '-' :: t)
    (h0' : ∀ t, ds ≠ '+' :: t) (h1 : ds ≠ [])
    (h2 : ds.all isDigitB = true) (h3 : digitsVal ds ≤ 9223372036854775807) :
    atoi ds = some ((digitsVal ds : Int)) := by
  unfold atoi
  split
  · rename_i t
    exact absurd rfl (h0 t)
  · rename_i t
    exact absurd rfl (h0' t)
  · rw [if_neg (by simpa [List.isEmpty_iff] using h1), if_pos h2, if_pos h3]

theorem parseGkeVersion_none_iff (v : List Char) :
    parseGkeVersion v = none ↔
      (∀ k g, splitGke v ≠ [k, g]) ∨
      ∃ k g, splitGke v = [k, g] ∧
        ((∀ x y z, splitDot k ≠ [x, y, z]) ∨
         ∃ x y z, splitDot k = [x, y, z] ∧
           (atoi x = none ∨ atoi y = none ∨ atoi z = none ∨ atoi g = none)) := by
  unfold parseGkeVersion
  split
  · rename_i k g hkg0
    split
    · rename_i x y z hxyz0
      constructor
      · intro h
        refine Or.inr ⟨k, g, hkg0, Or.inr ⟨x, y, z, hxyz0, ?_⟩⟩
        cases hx : atoi x <;> cases hy : atoi y <;> cases hz : atoi z <;>
          cases hg : atoi g <;> simp_all
      · intro h
        rcases h with h | ⟨k2, g2, hkg, h⟩
        · exact absurd hkg0 (h k g)
        · rw [hkg0] at hkg
          injection hkg with hk hg2
          injection hg2 with hg2
          subst hk
          subst hg2
          rcases h with h | ⟨x2, y2, z2, hxyz, h⟩
          · exact absurd hxyz0 (h x y z)
          · rw [hxyz0] at hxyz
            injection hxyz with e1 e2
            injection e2 with e2 e3
            injection e3 with e3
            subst e1
            subst e2
            subst e3
            rcases h with h | h | h | h <;> simp [h]
    · rename_i hns
      constructor
      · intro _
        exact Or.inr ⟨k, g, hkg0, Or.inl (fun x y z hc => hns x y z hc)⟩
      · intro _
        rfl
  · rename_i hns
    constructor
    · intro _
      exact Or.inl (fun k g hc => hns k g hc)
    · intro _
      rfl

/-! ### The claims -/

/-- Claim C1 (counterexample): the extractor is claimed to fail with a
FormatError whenever `targetVersion` does not parse, with the document
never scanned.  In the code it never fails: with the malformed target
`"1.34"` every comparison errors and is skipped, both borders default to
the document edges, and the whole (scanned, marker-containing) document is
returned with a nil error. -/
theorem c1_counterexample :
    parseGkeVersion (("1.34").toList) = none ∧
    versionLocations docC1 = [(2, 13)] ∧
    extractReleaseNotesRelevantForUpgrade docC1 (("1.30.3-gke.1211000").toList)
      (("1.34").toList) = some docC1 := by
  decide

/-- Claim C1 (amended): `extractReleaseNotesRelevantForUpgrade` never
returns an error; when neither `sourceVersion` nor `targetVersion` parses,
every marker comparison errors and is skipped, both borders take their
document-edge defaults, and the entire document is returned. -/
theorem c1_amended (doc sv tv : List Char) (hs : parseGkeVersion sv = none)
    (ht : parseGkeVersion tv = none) :
    extractReleaseNotesRelevantForUpgrade doc sv tv = some doc :=
  extract_full (preWindow_default_of_unparsable hs ht)

theorem c1_amended_witness :
    parseGkeVersion (("1.30").toList) = none ∧
    parseGkeVersion (("1.34").toList) = none ∧
    extractReleaseNotesRelevantForUpgrade docC1 (("1.30").toList)
      (("1.34").toList) = some docC1 :=
  ⟨by decide, by decide,
    c1_amended docC1 (("1.30").toList) (("1.34").toList) (by decide) (by decide)⟩

/-- Claim C2 (code bug): with `sourceVersion` newer than `targetVersion`
the two border scans cross: on `docC2` with source `9.0.0-gke.9` and
target `5.0.0-gke.5` the code computes `leftBorder = 16 > 13 = rightBorder`
and the Go slice `fullReleaseNotes[16:13]` panics (modelled as `none`),
contradicting the claimed invariant `0 ≤ left ≤ right ≤ len(document)`. -/
theorem c2_panic_eval :
    preWindow docC2 (("9.0.0-gke.9").toList) (("5.0.0-gke.5").toList) = (16, 13) ∧
    ¬ ((16 : Nat) ≤ 13) ∧
    extractReleaseNotesRelevantForUpgrade docC2 (("9.0.0-gke.9").toList)
      (("5.0.0-gke.5").toList) = none := by
  decide

/-- Claim C3: every marker occurrence whose text parses to a version `v`
with `sourceVersion ≤ v ≤ targetVersion` lies entirely inside the returned
(post-expansion) window. -/
theorem c3_inclusion (doc sv tv : List Char) (vs vt v : Int × Int × Int × Int)
    (loc : Nat × Nat)
    (hs : parseGkeVersion sv = some vs) (ht : parseGkeVersion tv = some vt)
    (hm : loc ∈ versionLocations doc)
    (hv : parseGkeVersion (sliceL doc loc.1 loc.2) = some v)
    (h1 : vle vs v) (h2 : vle v vt) :
    (finalWindow doc sv tv).isSome = true ∧
    ((finalWindow doc sv tv).getD (0, 0)).1 ≤ loc.1 ∧
    loc.2 ≤ ((finalWindow doc sv tv).getD (0, 0)).2 := by
  have hsl : stopsL doc tv loc = true := (stopsL_iff hv ht).mpr h2
  have hsr : stopsR doc sv loc = true := (stopsR_iff hv hs).mpr h1
  obtain ⟨resL, hresL, hL⟩ := leftBorder_le_of_stop hm hsl
  obtain ⟨resR, hresR, hR⟩ := rightBorder_ge_of_stop hm hsr
  have hml := versionLocations_mem hm
  have hw : preWindow doc sv tv = (resL.1, resR.2) := by
    simp only [preWindow, hresL, hresR]
  have hle : resL.1 ≤ resR.2 := by omega
  obtain ⟨-, hfw⟩ := extract_eq_edges hw hle
  have hlb : resL.1 ≤ doc.length := by
    have := preWindow_fst_le doc sv tv
    rw [hw] at this
    exact this
  have hrb : resR.2 ≤ doc.length := by
    have := preWindow_snd_le doc sv tv
    rw [hw] at this
    exact this
  obtain ⟨-, hle2⟩ := leftAppendOf_slice hlb
  obtain ⟨-, hre2, -⟩ := rightAppendOf_slice hrb
  rw [hfw]
  refine ⟨rfl, ?_, ?_⟩ <;> simp only [Option.getD_some] <;> omega

theorem c3_inclusion_witness :
    (finalWindow docC3 (("4.0.0-gke.0").toList) (("6.0.0-gke.0").toList)).isSome = true ∧
    ((finalWindow docC3 (("4.0.0-gke.0").toList)
      (("6.0.0-gke.0").toList)).getD (0, 0)).1 ≤ (16, 27).1 ∧
    (16, 27).2 ≤ ((finalWindow docC3 (("4.0.0-gke.0").toList)
      (("6.0.0-gke.0").toList)).getD (0, 0)).2 :=
  c3_inclusion docC3 (("4.0.0-gke.0").toList) (("6.0.0-gke.0").toList)
    (4, 0, 0, 0) (6, 0, 0, 0) (5, 0, 0, 5) (16, 27)
    (by decide) (by decide) (by decide) (by decide) (by decide) (by decide)

/-- Claim C4: the left border is exactly as specified: scanning marker
occurrences forward and skipping unparsable ones, stop at the first marker
whose version is `≤` target; the border is that marker's start when its
version equals the target, otherwise the start of the immediately
preceding occurrence (its own start when it is the very first), and offset
`0` when the scan completes with no stop (see `specLeftBorder`). -/
theorem c4_left_border (doc sv tv : List Char) :
    (preWindow doc sv tv).1 = specLeftBorder doc tv :=
  preWindow_fst_eq_spec doc sv tv

/-- Claim C5 (counterexample): the claim says the returned right edge is
exactly the start of the first heading occurrence strictly after the
pre-expansion right.  On `docC5` the pre-expansion window is `[0, 11)`,
the first heading match in the suffix starts at suffix offset `2`
(absolute offset `13`), yet the final window is `[0, 12)`: the code cuts
at `firstHeading.start - 1`, one character before the heading match. -/
theorem c5_counterexample :
    preWindow docC5 (("1.2.3-gke.4").toList) (("1.2.3-gke.4").toList) = (0, 11) ∧
    (headingLocations (docC5.drop 11)).head? = some (2, 16) ∧
    finalWindow docC5 (("1.2.3-gke.4").toList) (("1.2.3-gke.4").toList) =
      some (0, 12) ∧
    ¬ ((12 : Nat) = 11 + 2) := by
  decide

/-- Claim C5 (amended): when the border scans do not cross, the returned
substring is `document[L:R]` where `L` is the start of the last heading
match in the prefix strictly before the pre-expansion left (or `0` with no
heading there — see `leftEdge`), and `R` is ONE CHARACTER BEFORE the start
of the first heading match in the suffix strictly after the pre-expansion
right, clamped at the pre-expansion right (or the document end with no
heading there — see `rightEdge`); the window only ever widens. -/
theorem c5_amended (doc sv tv : List Char) (lb rb : Nat)
    (hw : preWindow doc sv tv = (lb, rb)) (hle : lb ≤ rb) :
    extractReleaseNotesRelevantForUpgrade doc sv tv =
      some (sliceL doc (leftEdge doc lb) (rightEdge doc rb)) ∧
    finalWindow doc sv tv = some (leftEdge doc lb, rightEdge doc rb) ∧
    leftEdge doc lb ≤ lb ∧ rb ≤ rightEdge doc rb ∧ rightEdge doc rb ≤ doc.length := by
  obtain ⟨h1, h2⟩ := extract_eq_edges hw hle
  have hlb : lb ≤ doc.length := by
    have := preWindow_fst_le doc sv tv
    rw [hw] at this
    exact this
  have hrb : rb ≤ doc.length := by
    have := preWindow_snd_le doc sv tv
    rw [hw] at this
    exact this
  obtain ⟨-, hl2⟩ := leftAppendOf_slice hlb
  obtain ⟨-, hr2, hr3⟩ := rightAppendOf_slice hrb
  exact ⟨h1, h2, hl2, hr2, hr3⟩

theorem c5_amended_witness :
    extractReleaseNotesRelevantForUpgrade docC5 (("1.2.3-gke.4").toList)
      (("1.2.3-gke.4").toList) =
      some (sliceL docC5 (leftEdge docC5 0) (rightEdge docC5 11)) ∧
    finalWindow docC5 (("1.2.3-gke.4").toList) (("1.2.3-gke.4").toList) =
      some (leftEdge docC5 0, rightEdge docC5 11) ∧
    leftEdge docC5 0 ≤ 0 ∧ 11 ≤ rightEdge docC5 11 ∧
    rightEdge docC5 11 ≤ docC5.length :=
  c5_amended docC5 (("1.2.3-gke.4").toList) (("1.2.3-gke.4").toList) 0 11
    (by decide) (by decide)

/-- Claim C6 (counterexample): `parseGkeVersion` is claimed to fail on any
negative numeric component, in particular on `"1.2.-3-gke.4"`.  Go's
`strconv.Atoi` accepts an optional sign, so that input parses successfully
to `(1, 2, -3, 4)`. -/
theorem c6_counterexample :
    parseGkeVersion (("1.2.-3-gke.4").toList) = some (1, 2, -3, 4) := by
  decide

/-- Claim C6 (amended): `parseGkeVersion` fails exactly when the tag
separator `-gke.` is missing or duplicated, when the pre-tag segment does
not split into exactly three components, or when one of the four
components fails Go integer parsing — which accepts an optional leading
sign, so negative components are accepted, not rejected: `Atoi` on
`'-'` followed by digits in range succeeds with the negated value. -/
theorem c6_amended :
    (∀ v : List Char, parseGkeVersion v = none ↔
      (∀ k g, splitGke v ≠ [k, g]) ∨
      ∃ k g, splitGke v = [k, g] ∧
        ((∀ x y z, splitDot k ≠ [x, y, z]) ∨
         ∃ x y z, splitDot k = [x, y, z] ∧
           (atoi x = none ∨ atoi y = none ∨ atoi z = none ∨ atoi g = none))) ∧
    (∀ ds : List Char, ds ≠ [] → ds.all isDigitB = true →
      digitsVal ds ≤ 9223372036854775808 →
      atoi ('-' :: ds) = some (-(digitsVal ds : Int))) :=
  ⟨parseGkeVersion_none_iff, fun _ h1 h2 h3 => atoi_neg_digits h1 h2 h3⟩

theorem c6_amended_witness :
    ('3' :: []) ≠ ([] : List Char) ∧
    atoi ('-' :: '3' :: []) = some (-(digitsVal ('3' :: []) : Int)) :=
  ⟨by decide, c6_amended.2 ('3' :: []) (by decide) (by decide) (by decide)⟩

/-- Claim C7: on well-formed versions, `compareVersions` is computed from
the parsed integer tuples by `cmpParsed`, the lexicographic numeric
comparison on (major, minor, patch, vendorPatch) where the first unequal
field decides; it is reflexive (`compare(a,a) = 0`), antisymmetric,
transitive and total for the induced order `vle`, takes only the values
`-1/0/1`, and depends only on the parsed values, so strings differing only
in leading zeros compare as equal. -/
theorem c7_order (a b c a2 : List Char) (pa pb pc : Int × Int × Int × Int)
    (ha : parseGkeVersion a = some pa) (hb : parseGkeVersion b = some pb)
    (hc : parseGkeVersion c = some pc) :
    compareVersions a b = some (cmpParsed pa pb) ∧
    compareVersions a a = some 0 ∧
    (cmpParsed pa pb = 0 ↔ pa = pb) ∧
    cmpParsed pa pb = - cmpParsed pb pa ∧
    (0 ≤ cmpParsed pa pb ↔ vle pa pb) ∧
    (vle pa pb → vle pb pc → vle pa pc) ∧
    (vle pa pb ∨ vle pb pa) ∧
    (cmpParsed pa pb = -1 ∨ cmpParsed pa pb = 0 ∨ cmpParsed pa pb = 1) ∧
    (parseGkeVersion a2 = some pa → compareVersions a2 b = compareVersions a b) := by
  refine ⟨compareVersions_eq_some ha hb, ?_, cmpParsed_zero_iff pa pb,
    cmpParsed_flip pa pb, cmpParsed_nonneg pa pb, vle_trans, vle_total pa pb,
    cmpParsed_cases pa pb, ?_⟩
  · rw [compareVersions_eq_some ha ha, cmpParsed_self]
  · intro ha2
    rw [compareVersions_eq_some ha2 hb, compareVersions_eq_some ha hb]

theorem c7_order_witness :
    compareVersions (("1.2.3-gke.4").toList) (("1.2.10-gke.0").toList) =
      some (cmpParsed (1, 2, 3, 4) (1, 2, 10, 0)) ∧
    compareVersions (("1.2.3-gke.4").toList) (("1.2.3-gke.4").toList) = some 0 ∧
    compareVersions (("01.02.003-gke.004").toList) (("1.2.10-gke.0").toList) =
      compareVersions (("1.2.3-gke.4").toList) (("1.2.10-gke.0").toList) :=
  ⟨(c7_order (("1.2.3-gke.4").toList) (("1.2.10-gke.0").toList)
      (("2.0.0-gke.0").toList) (("01.02.003-gke.004").toList)
      (1, 2, 3, 4) (1, 2, 10, 0) (2, 0, 0, 0)
      (by decide) (by decide) (by decide)).1,
   (c7_order (("1.2.3-gke.4").toList) (("1.2.10-gke.0").toList)
      (("2.0.0-gke.0").toList) (("01.02.003-gke.004").toList)
      (1, 2, 3, 4) (1, 2, 10, 0) (2, 0, 0, 0)
      (by decide) (by decide) (by decide)).2.1,
   (c7_order (("1.2.3-gke.4").toList) (("1.2.10-gke.0").toList)
      (("2.0.0-gke.0").toList) (("01.02.003-gke.004").toList)
      (1, 2, 3, 4) (1, 2, 10, 0) (2, 0, 0, 0)
      (by decide) (by decide) (by decide)).2.2.2.2.2.2.2.2 (by decide)⟩

/-- Claim C8 (counterexample): widening the range by raising the target is
claimed never to shrink the returned window.  On `docC8` with source
`0.0.0-gke.0`, raising the target from `1.0.0-gke.0` to `5.0.0-gke.0`
moves the returned window from `[0, 43)` to `[1, 43)`: with the older
target every marker is newer, the left scan never stops and defaults to
offset `0`, while the newer target stops at the `5.0.0-gke.0` marker and
left expansion only reaches back to the heading at offset `1`. -/
theorem c8_counterexample :
    parseGkeVersion (("1.0.0-gke.0").toList) = some (1, 0, 0, 0) ∧
    parseGkeVersion (("5.0.0-gke.0").toList) = some (5, 0, 0, 0) ∧
    parseGkeVersion (("0.0.0-gke.0").toList) = some (0, 0, 0, 0) ∧
    vle (1, 0, 0, 0) (5, 0, 0, 0) ∧
    finalWindow docC8 (("0.0.0-gke.0").toList) (("1.0.0-gke.0").toList) =
      some (0, 43) ∧
    finalWindow docC8 (("0.0.0-gke.0").toList) (("5.0.0-gke.0").toList) =
      some (1, 43) ∧
    ¬ ((1 : Nat) ≤ 0) := by
  decide

/-- Claim C8 (amended): monotonicity does hold for the PRE-expansion
window whenever neither boundary default fires for the narrower pair: if
some marker stops the left scan for `targetVersion` and some marker stops
the right scan for `sourceVersion`, then lowering the source and/or
raising the target can only move the left border left and the right border
right.  The returned (post-expansion) window is not monotone, because the
no-stop default (left = 0) and prefix/suffix-local heading matching can
move edges the other way. -/
theorem c8_amended (doc sv tv sv2 tv2 : List Char)
    (vs vt vs2 vt2 : Int × Int × Int × Int)
    (hs : parseGkeVersion sv = some vs) (ht : parseGkeVersion tv = some vt)
    (hs2 : parseGkeVersion sv2 = some vs2) (ht2 : parseGkeVersion tv2 = some vt2)
    (hws : vle vs2 vs) (hwt : vle vt vt2)
    (hstopL : ∃ loc ∈ versionLocations doc, stopsL doc tv loc = true)
    (hstopR : ∃ loc ∈ versionLocations doc, stopsR doc sv loc = true) :
    (preWindow doc sv2 tv2).1 ≤ (preWindow doc sv tv).1 ∧
    (preWindow doc sv tv).2 ≤ (preWindow doc sv2 tv2).2 := by
  constructor
  · rw [preWindow_fst_eq_spec, preWindow_fst_eq_spec]
    exact specLeftBorder_mono ht ht2 hwt hstopL
  · rw [preWindow_snd_eq_spec, preWindow_snd_eq_spec]
    exact specRightBorder_mono hs hs2 hws hstopR

theorem c8_amended_witness :
    (preWindow docC8 (("0.0.0-gke.0").toList) (("9.0.0-gke.0").toList)).1 ≤
      (preWindow docC8 (("0.0.0-gke.0").toList) (("5.0.0-gke.0").toList)).1 ∧
    (preWindow docC8 (("0.0.0-gke.0").toList) (("5.0.0-gke.0").toList)).2 ≤
      (preWindow docC8 (("0.0.0-gke.0").toList) (("9.0.0-gke.0").toList)).2 :=
  c8_amended docC8 (("0.0.0-gke.0").toList) (("5.0.0-gke.0").toList)
    (("0.0.0-gke.0").toList) (("9.0.0-gke.0").toList)
    (0, 0, 0, 0) (5, 0, 0, 0) (0, 0, 0, 0) (9, 0, 0, 0)
    (by decide) (by decide) (by decide) (by decide) (by decide) (by decide)
    (by decide) (by decide)

/-- Claim C9: a document with no occurrence of the marker shape is
returned unchanged, whatever the source and target arguments: both borders
default to the document edges, both cut strings are empty, and the
extractor returns the whole document. -/
theorem c9_no_markers (doc sv tv : List Char) (h : versionLocations doc = []) :
    extractReleaseNotesRelevantForUpgrade doc sv tv = some doc :=
  extract_full (preWindow_default_of_no_markers h)

theorem c9_no_markers_witness :
    versionLocations docC9 = [] ∧
    extractReleaseNotesRelevantForUpgrade docC9 (("1.0.0-gke.1").toList)
      (("2.0.0-gke.2").toList) = some docC9 :=
  ⟨by decide,
    c9_no_markers docC9 (("1.0.0-gke.1").toList) (("2.0.0-gke.2").toList) (by decide)⟩

/-- Claim C10: every reported heading occurrence starts at offset `0` or
at a `'\n'` and ends at the document end or just after a consumed `'\n'`;
reported occurrences are non-overlapping and in order.  Consequently, for
two reported occurrences in order, the second starts at a `'\n'` at or
after the first occurrence's end, so a second stand-alone date line — a
newline-free stretch beginning immediately after the line break that
terminates a detected heading — contains no reported heading start: any
newline-free interval `[e1, q)` forces `q ≤ s2`. -/
theorem c10_headings (doc : List Char) (i j s1 e1 s2 e2 : Nat) (hij : i < j)
    (h1 : (headingLocations doc)[i]? = some (s1, e1))
    (h2 : (headingLocations doc)[j]? = some (s2, e2)) :
    (s1 = 0 ∨ doc[s1]? = some '\n') ∧
    (e1 = doc.length ∨ doc[e1 - 1]? = some '\n') ∧
    e1 ≤ s2 ∧ doc[s2]? = some '\n' ∧
    ∀ q, (∀ k, e1 ≤ k → k < q → doc[k]? ≠ some '\n') → q ≤ s2 := by
  have hi : i < (headingLocations doc).length := by
    by_contra hc
    rw [List.getElem?_eq_none (by omega)] at h1
    exact Option.noConfusion h1
  have hj : j < (headingLocations doc).length := by
    by_contra hc
    rw [List.getElem?_eq_none (by omega)] at h2
    exact Option.noConfusion h2
  have hgi : (headingLocations doc)[i] = (s1, e1) := by
    rw [List.getElem?_eq_getElem hi] at h1
    injection h1
  have hgj : (headingLocations doc)[j] = (s2, e2) := by
    rw [List.getElem?_eq_getElem hj] at h2
    injection h2
  have hp := List.pairwise_iff_get.mp (headingLocations_pairwise doc)
    ⟨i, hi⟩ ⟨j, hj⟩ (Fin.mk_lt_mk.mpr hij)
  simp only [List.get_eq_getElem, hgi, hgj] at hp
  have hm1 : (s1, e1) ∈ headingLocations doc := hgi ▸ List.getElem_mem hi
  have hm2 : (s2, e2) ∈ headingLocations doc := hgj ▸ List.getElem_mem hj
  obtain ⟨hb1, hb2, hb3, hb4⟩ := headingLocations_mem hm1
  obtain ⟨hc1, hc2, hc3, hc4⟩ := headingLocations_mem hm2
  dsimp only at hb1 hb2 hb3 hb4 hc1 hc2 hc3 hc4 hp
  have hs2n : doc[s2]? = some '\n' := by
    rcases hc3 with h0 | h0
    · omega
    · exact h0
  refine ⟨hb3, hb4, hp, hs2n, ?_⟩
  intro q hq
  by_contra hcq
  push_neg at hcq
  exact hq s2 (by omega) (by omega) hs2n

theorem c10_headings_witness :
    (15 : Nat) ≤ 29 ∧ docC10[(29 : Nat)]? = some '\n' :=
  ⟨(c10_headings docC10 0 1 1 15 29 43 (by decide) (by decide) (by decide)).2.2.1,
   (c10_headings docC10 0 1 1 15 29 43 (by decide) (by decide) (by decide)).2.2.2.1⟩
